import Mathlib

/-!
Shallow embedding of the PIKata notebook (`src/StickingPI.ipynb`): a Buffon's
needle simulation estimating π, a custom Newton square root, and a Riemann-sum
integrator.  Python floats are modelled with exact rationals `ℚ`; the
unbounded Newton `while` loop is modelled with explicit fuel, `none` meaning
the loop did not stop within the given fuel; the uncaught Python exception in
`sqrtn` is modelled with `Except String`.  Random draws are inputs.
-/

namespace PIKata

/-- A point, as in the notebook's two-element lists `[x, y]`. -/
abbrev Point : Type := ℚ × ℚ

/-- A segment (a "needle"): an ordered pair of points, as in `[[x1,y1],[x2,y2]]`. -/
abbrev Segment : Type := Point × Point

/-- Embeds the body of `crosses`' loop head: `if s[0][0] > s[1][0]: s[0], s[1] = s[1], s[0]`.
The in-place swap becomes returning the (possibly swapped) segment. -/
def swapStep (s : Segment) : Segment :=
  if s.2.1 < s.1.1 then (s.2, s.1) else s

/-- Embeds `crosses(s, lines)`.  The Python function iterates over the grid
lines, swapping the segment's endpoints in place when the first has the larger
x, and returns `True` on the first line `l` with `s[0][0] <= l and s[1][0] >= l`.
The in-place mutation is modelled by also returning the final segment. -/
def crosses : Segment → List ℚ → Bool × Segment
  | s, [] => (false, s)
  | s, l :: ls =>
      let s' := swapStep s
      if s'.1.1 ≤ l ∧ l ≤ s'.2.1 then (true, s')
      else crosses s' ls

theorem swapStep_fst_le (s : Segment) : (swapStep s).1.1 ≤ (swapStep s).2.1 := by
  unfold swapStep
  split
  · exact le_of_lt (by assumption)
  · exact le_of_not_lt (by assumption)

theorem swapStep_min (s : Segment) :
    min (swapStep s).1.1 (swapStep s).2.1 = min s.1.1 s.2.1 := by
  unfold swapStep; split <;> simp [min_comm]

theorem swapStep_max (s : Segment) :
    max (swapStep s).1.1 (swapStep s).2.1 = max s.1.1 s.2.1 := by
  unfold swapStep; split <;> simp [max_comm]

theorem swapStep_cases (s : Segment) :
    swapStep s = s ∨ swapStep s = (s.2, s.1) := by
  unfold swapStep; split
  · exact Or.inr rfl
  · exact Or.inl rfl

/-- After normalization the crossing test on one line is the min/max span test. -/
theorem swapStep_test (s : Segment) (l : ℚ) :
    ((swapStep s).1.1 ≤ l ∧ l ≤ (swapStep s).2.1) ↔
      (min s.1.1 s.2.1 ≤ l ∧ l ≤ max s.1.1 s.2.1) := by
  have h := swapStep_fst_le s
  have hmin : min s.1.1 s.2.1 = (swapStep s).1.1 := by
    rw [← swapStep_min s, min_eq_left h]
  have hmax : max s.1.1 s.2.1 = (swapStep s).2.1 := by
    rw [← swapStep_max s, max_eq_right h]
  rw [hmin, hmax]

/-- **C2.** For every segment and every grid, `crosses` returns `true` iff some
grid line `l` satisfies `min(x1,x2) ≤ l ≤ max(x1,x2)`: the boundary is
inclusive, and a segment strictly between or outside all lines yields `false`. -/
theorem crosses_iff_span (s : Segment) (lines : List ℚ) :
    (crosses s lines).1 = true ↔
      ∃ l ∈ lines, min s.1.1 s.2.1 ≤ l ∧ l ≤ max s.1.1 s.2.1 := by
  induction lines generalizing s with
  | nil => simp [crosses]
  | cons l ls ih =>
    unfold crosses
    simp only [List.mem_cons]
    by_cases htest : (swapStep s).1.1 ≤ l ∧ l ≤ (swapStep s).2.1
    · rw [if_pos htest]
      simp only [true_iff]
      exact ⟨l, Or.inl rfl, (swapStep_test s l).mp htest⟩
    · rw [if_neg htest]
      rw [ih (swapStep s)]
      rw [swapStep_min s, swapStep_max s]
      constructor
      · rintro ⟨l', hl', hspan⟩
        exact ⟨l', Or.inr hl', hspan⟩
      · rintro ⟨l', hl', hspan⟩
        rcases hl' with rfl | hl'
        · exact absurd ((swapStep_test s l').mpr hspan) htest
        · exact ⟨l', hl', hspan⟩

/-- **C8.** The only state effect of `crosses` is possibly swapping the order of
the segment's endpoints: the returned segment holds the same two endpoints as
an unordered pair (the grid, being an input, is untouched in this pure model). -/
theorem crosses_endpoints (s : Segment) (lines : List ℚ) :
    (crosses s lines).2 = s ∨ (crosses s lines).2 = (s.2, s.1) := by
  induction lines generalizing s with
  | nil => exact Or.inl rfl
  | cons l ls ih =>
    unfold crosses
    by_cases htest : (swapStep s).1.1 ≤ l ∧ l ≤ (swapStep s).2.1
    · rw [if_pos htest]
      exact swapStep_cases s
    · rw [if_neg htest]
      rcases ih (swapStep s) with h | h <;> rw [h] <;>
        rcases swapStep_cases s with h' | h' <;> rw [h'] <;> simp

/-! ### The square-root primitive `sqrtn` (Newton's method) -/

/-- The tolerance `e = 1.0e-7` of `sqrtn`'s loop. -/
def sqrtTol : ℚ := 1 / 10000000

/-- Embeds `sqrtn`'s `while abs(n - k*k) > e: k = (k + n/k) / 2` loop, with
explicit fuel; `none` means the loop did not stop within `fuel` updates. -/
def sqrtnLoop (n : ℚ) : ℚ → ℕ → Option ℚ
  | k, fuel =>
    if |n - k * k| ≤ sqrtTol then some k
    else
      match fuel with
      | 0 => none
      | f + 1 => sqrtnLoop n ((k + n / k) / 2) f

/-- Embeds `sqrtn(n)`: negative input raises (`Except.error "sqrt of neg"`),
zero returns `0` before the loop, otherwise Newton iteration seeded at `n + 1`. -/
def sqrtn (fuel : ℕ) (n : ℚ) : Option (Except String ℚ) :=
  if n < 0 then some (Except.error "sqrt of neg")
  else if n = 0 then some (Except.ok 0)
  else (sqrtnLoop n (n + 1) fuel).map Except.ok

/-- The Newton iterates of `sqrtnLoop` starting from `k`. -/
def newtonFrom (n : ℚ) : ℚ → ℕ → ℚ
  | k, 0 => k
  | k, i + 1 => newtonFrom n ((k + n / k) / 2) i

/-- The Newton iterates of `sqrtn` proper, seeded at `n + 1`. -/
def newton (n : ℚ) (i : ℕ) : ℚ := newtonFrom n (n + 1) i

theorem newtonFrom_succ (n k : ℚ) (i : ℕ) :
    newtonFrom n k (i + 1) = (newtonFrom n k i + n / newtonFrom n k i) / 2 := by
  induction i generalizing k with
  | zero => rfl
  | succ j ih =>
    have h1 : newtonFrom n k (j + 1 + 1) = newtonFrom n ((k + n / k) / 2) (j + 1) := rfl
    rw [h1, ih]
    rfl

theorem newton_zero (n : ℚ) : newton n 0 = n + 1 := rfl

theorem newton_succ (n : ℚ) (i : ℕ) :
    newton n (i + 1) = (newton n i + n / newton n i) / 2 :=
  newtonFrom_succ n (n + 1) i

/-- Any value returned by the loop satisfies the exit condition. -/
theorem sqrtnLoop_sound (n : ℚ) :
    ∀ fuel k k', sqrtnLoop n k fuel = some k' → |n - k' * k'| ≤ sqrtTol := by
  intro fuel
  induction fuel with
  | zero =>
    intro k k' h
    rw [sqrtnLoop] at h
    split at h
    · cases h; assumption
    · simp at h
  | succ f ih =>
    intro k k' h
    rw [sqrtnLoop] at h
    split at h
    · cases h; assumption
    · exact ih _ _ h

/-- The loop preserves strict positivity of the iterate. -/
theorem sqrtnLoop_pos (n : ℚ) (hn : 0 < n) :
    ∀ fuel k, 0 < k → ∀ k', sqrtnLoop n k fuel = some k' → 0 < k' := by
  intro fuel
  induction fuel with
  | zero =>
    intro k hk k' h
    rw [sqrtnLoop] at h
    split at h
    · cases h; assumption
    · simp at h
  | succ f ih =>
    intro k hk k' h
    rw [sqrtnLoop] at h
    split at h
    · cases h; assumption
    · exact ih _ (by positivity) _ h

/-- If some iterate within the fuel meets the exit condition, the loop stops. -/
theorem sqrtnLoop_stops (n : ℚ) :
    ∀ fuel k, (∃ i ≤ fuel, |n - newtonFrom n k i * newtonFrom n k i| ≤ sqrtTol) →
      ∃ k', sqrtnLoop n k fuel = some k' := by
  intro fuel
  induction fuel with
  | zero =>
    rintro k ⟨i, hi, hguard⟩
    rw [Nat.le_zero] at hi
    subst hi
    have hg : |n - k * k| ≤ sqrtTol := hguard
    exact ⟨k, by rw [sqrtnLoop, if_pos hg]⟩
  | succ f ih =>
    rintro k ⟨i, hi, hguard⟩
    by_cases h0 : |n - k * k| ≤ sqrtTol
    · exact ⟨k, by rw [sqrtnLoop, if_pos h0]⟩
    · have hrec : ∃ k', sqrtnLoop n ((k + n / k) / 2) f = some k' := by
        apply ih
        cases i with
        | zero => exact absurd hguard h0
        | succ j => exact ⟨j, Nat.le_of_succ_le_succ hi, hguard⟩
      obtain ⟨k', hk'⟩ := hrec
      exact ⟨k', by rw [sqrtnLoop, if_neg h0]; exact hk'⟩

/-! ### Convergence of the Newton iteration, over `ℝ` -/

theorem newton_pos (n : ℚ) (hn : 0 < n) : ∀ i, 0 < newton n i := by
  intro i
  induction i with
  | zero => rw [newton_zero]; positivity
  | succ j ih => rw [newton_succ]; positivity

theorem sqrt_le_newton (n : ℚ) (hn : 0 < n) (i : ℕ) :
    Real.sqrt n ≤ (newton n i : ℝ) := by
  have hn' : (0:ℝ) ≤ (n:ℝ) := by positivity
  have hs : Real.sqrt n * Real.sqrt n = (n:ℝ) := Real.mul_self_sqrt hn'
  have hs0 : (0:ℝ) ≤ Real.sqrt n := Real.sqrt_nonneg _
  induction i with
  | zero =>
    rw [newton_zero]
    push_cast
    nlinarith [sq_nonneg (Real.sqrt (n:ℝ) - 1)]
  | succ j ih =>
    have hk : (0:ℝ) < (newton n j : ℝ) := by exact_mod_cast newton_pos n hn j
    rw [newton_succ]
    push_cast
    rw [le_div_iff₀ (by norm_num : (0:ℝ) < 2)]
    have hdiv : (n:ℝ) / (newton n j : ℝ) * (newton n j : ℝ) = (n:ℝ) :=
      div_mul_cancel₀ _ hk.ne'
    nlinarith [sq_nonneg ((newton n j : ℝ) - Real.sqrt (n:ℝ))]

/-- One Newton step divides the error by at least two. -/
theorem newton_err_half (n : ℚ) (hn : 0 < n) (i : ℕ) :
    (newton n (i + 1) : ℝ) - Real.sqrt n ≤ ((newton n i : ℝ) - Real.sqrt n) / 2 := by
  have hk : (0:ℝ) < (newton n i : ℝ) := by exact_mod_cast newton_pos n hn i
  have hs : Real.sqrt n * Real.sqrt n = (n:ℝ) :=
    Real.mul_self_sqrt (by positivity)
  have hs0 : (0:ℝ) ≤ Real.sqrt n := Real.sqrt_nonneg _
  have hks : Real.sqrt n ≤ (newton n i : ℝ) := sqrt_le_newton n hn i
  have hdiv : (n:ℝ) / (newton n i : ℝ) * (newton n i : ℝ) = (n:ℝ) :=
    div_mul_cancel₀ _ hk.ne'
  rw [newton_succ]
  push_cast
  rw [div_sub' _ _ _ (by norm_num : (2:ℝ) ≠ 0), div_le_div_iff₀ (by norm_num) (by norm_num)]
  nlinarith [mul_nonneg (sub_nonneg.mpr hks) hs0]

/-- The error after `i` steps is at most the initial error shrunk by `2^i`. -/
theorem newton_err_le (n : ℚ) (hn : 0 < n) (i : ℕ) :
    (newton n i : ℝ) - Real.sqrt n ≤ ((n:ℝ) + 1 - Real.sqrt n) / 2 ^ i := by
  induction i with
  | zero => rw [newton_zero]; push_cast; norm_num
  | succ j ih =>
    calc (newton n (j + 1) : ℝ) - Real.sqrt n
        ≤ ((newton n j : ℝ) - Real.sqrt n) / 2 := newton_err_half n hn j
      _ ≤ (((n:ℝ) + 1 - Real.sqrt n) / 2 ^ j) / 2 := by gcongr
      _ = ((n:ℝ) + 1 - Real.sqrt n) / 2 ^ (j + 1) := by
          rw [div_div, pow_succ]

/-- The loop guard quantity at iterate `i`, bounded through the error. -/
theorem newton_guard (n : ℚ) (hn : 0 < n) (i : ℕ) :
    |(n:ℝ) - (newton n i : ℝ) * (newton n i : ℝ)|
      ≤ (((n:ℝ) + 1 - Real.sqrt n) / 2 ^ i)
        * (((n:ℝ) + 1 - Real.sqrt n) + 2 * Real.sqrt n) := by
  have hk : (0:ℝ) < (newton n i : ℝ) := by exact_mod_cast newton_pos n hn i
  have hs : Real.sqrt n * Real.sqrt n = (n:ℝ) :=
    Real.mul_self_sqrt (by positivity)
  have hs0 : (0:ℝ) ≤ Real.sqrt n := Real.sqrt_nonneg _
  have hks : Real.sqrt n ≤ (newton n i : ℝ) := sqrt_le_newton n hn i
  have hE0 : (0:ℝ) ≤ (n:ℝ) + 1 - Real.sqrt n := by
    have h0 := sqrt_le_newton n hn 0
    rw [newton_zero] at h0
    push_cast at h0
    linarith
  have herr : (newton n i : ℝ) - Real.sqrt n ≤ ((n:ℝ) + 1 - Real.sqrt n) / 2 ^ i :=
    newton_err_le n hn i
  have habs : |(n:ℝ) - (newton n i : ℝ) * (newton n i : ℝ)|
      = ((newton n i : ℝ) - Real.sqrt n) * ((newton n i : ℝ) + Real.sqrt n) := by
    rw [abs_sub_comm, abs_of_nonneg (by nlinarith)]
    linear_combination hs
  rw [habs]
  have h2i : (1:ℝ) ≤ 2 ^ i := one_le_pow₀ (by norm_num)
  have hshr : ((n:ℝ) + 1 - Real.sqrt n) / 2 ^ i ≤ (n:ℝ) + 1 - Real.sqrt n :=
    div_le_self hE0 h2i
  exact mul_le_mul herr (by linarith) (by linarith) (div_nonneg hE0 (by positivity))

/-- For every positive rational input the Newton loop eventually stops. -/
theorem sqrtnLoop_terminates (n : ℚ) (hn : 0 < n) :
    ∃ fuel k, sqrtnLoop n (n + 1) fuel = some k := by
  have htol : (0:ℝ) < ((sqrtTol : ℚ) : ℝ) := by
    rw [sqrtTol]; push_cast; norm_num
  obtain ⟨m, hm⟩ := pow_unbounded_of_one_lt
    ((((n:ℝ) + 1 - Real.sqrt n) * (((n:ℝ) + 1 - Real.sqrt n) + 2 * Real.sqrt n))
      / ((sqrtTol : ℚ) : ℝ)) (by norm_num : (1:ℝ) < 2)
  refine ⟨m, ?_⟩
  apply sqrtnLoop_stops
  refine ⟨m, le_refl m, ?_⟩
  have h2m : (0:ℝ) < 2 ^ m := by positivity
  rw [div_lt_iff₀ htol] at hm
  have hreal : |(n:ℝ) - (newton n m : ℝ) * (newton n m : ℝ)| ≤ ((sqrtTol : ℚ) : ℝ) := by
    refine (newton_guard n hn m).trans ?_
    rw [div_mul_eq_mul_div, div_le_iff₀ h2m]
    nlinarith
  exact_mod_cast hreal

/-- **C3.** For every rational `n ≥ 0` the square-root primitive terminates
(for some fuel), and its result `k` satisfies `|k² − n| ≤ 1e-6`; in fact the
loop exits only when `|n − k²| ≤ 1e-7`. -/
theorem sqrtn_tolerance (n : ℚ) (hn : 0 ≤ n) :
    ∃ fuel k, sqrtn fuel n = some (Except.ok k) ∧
      |n - k * k| ≤ sqrtTol ∧ |k * k - n| ≤ 1 / 1000000 := by
  rcases eq_or_lt_of_le hn with heq | hpos
  · refine ⟨0, 0, ?_, ?_, ?_⟩ <;> rw [← heq] <;> norm_num [sqrtn, sqrtTol]
  · obtain ⟨fuel, k, hloop⟩ := sqrtnLoop_terminates n hpos
    have hg := sqrtnLoop_sound n fuel (n + 1) k hloop
    refine ⟨fuel, k, ?_, hg, ?_⟩
    · rw [sqrtn, if_neg (not_lt.mpr hn), if_neg hpos.ne', hloop]
      rfl
    · rw [abs_sub_comm]
      refine hg.trans ?_
      rw [sqrtTol]
      norm_num

/-- Closed witness for the theorem of C3. -/
theorem sqrtn_tolerance_witness :
    ∃ fuel k, sqrtn fuel (1/2) = some (Except.ok k) ∧
      |1/2 - k * k| ≤ sqrtTol ∧ |k * k - 1/2| ≤ 1 / 1000000 :=
  sqrtn_tolerance (1/2) (by norm_num)

/-- **C4.** `sqrtn` returns exactly `0` on input `0` without entering the
iteration (any fuel, including none, suffices), raises `InvalidArgument`
exactly on negative inputs, and raises on nothing else. -/
theorem sqrtn_failure_paths (fuel : ℕ) (n : ℚ) :
    (n < 0 → sqrtn fuel n = some (Except.error "sqrt of neg")) ∧
    sqrtn fuel 0 = some (Except.ok 0) ∧
    (0 ≤ n → ∀ msg, sqrtn fuel n ≠ some (Except.error msg)) := by
  refine ⟨fun hneg => ?_, ?_, fun hnn msg h => ?_⟩
  · rw [sqrtn, if_pos hneg]
  · rw [sqrtn, if_neg (by norm_num), if_pos rfl]
  · rw [sqrtn, if_neg (not_lt.mpr hnn)] at h
    by_cases h0 : n = 0
    · rw [if_pos h0] at h
      simp at h
    · rw [if_neg h0] at h
      rcases Option.map_eq_some'.mp h with ⟨k, -, hk⟩
      exact Except.noConfusion hk

/-- Closed witness for the theorem of C4. -/
theorem sqrtn_failure_paths_witness :
    sqrtn 3 (-2) = some (Except.error "sqrt of neg") ∧
    sqrtn 0 0 = some (Except.ok 0) :=
  ⟨(sqrtn_failure_paths 3 (-2)).1 (by norm_num), (sqrtn_failure_paths 0 0).2.1⟩

/-- **C10.** On `0 ≤ n ≤ 1` the uncapped Newton iteration of `sqrtn`
terminates; 25 updates are enough for every such input. -/
theorem sqrtn_terminates_unit_interval (n : ℚ) (h0 : 0 ≤ n) (h1 : n ≤ 1) :
    ∃ k, sqrtn 25 n = some (Except.ok k) := by
  rcases eq_or_lt_of_le h0 with heq | hpos
  · exact ⟨0, by rw [← heq]; norm_num [sqrtn]⟩
  · have hs0 : (0:ℝ) ≤ Real.sqrt n := Real.sqrt_nonneg _
    have hs1 : Real.sqrt n ≤ 1 := Real.sqrt_le_one.mpr (by exact_mod_cast h1)
    have hss : Real.sqrt n * Real.sqrt n = (n:ℝ) :=
      Real.mul_self_sqrt (by positivity)
    have hguard : |n - newton n 25 * newton n 25| ≤ sqrtTol := by
      have hreal : |(n:ℝ) - (newton n 25 : ℝ) * (newton n 25 : ℝ)|
          ≤ ((sqrtTol : ℚ) : ℝ) := by
        refine (newton_guard n hpos 25).trans ?_
        have hE1 : (n:ℝ) + 1 - Real.sqrt n ≤ 1 := by nlinarith
        have hE0 : (0:ℝ) ≤ (n:ℝ) + 1 - Real.sqrt n := by nlinarith
        calc (((n:ℝ) + 1 - Real.sqrt n) / 2 ^ 25)
              * (((n:ℝ) + 1 - Real.sqrt n) + 2 * Real.sqrt n)
            ≤ ((1:ℝ) / 2 ^ 25) * 3 := by
              apply mul_le_mul (by gcongr) (by nlinarith) (by nlinarith)
              norm_num
          _ ≤ ((sqrtTol : ℚ) : ℝ) := by
              rw [sqrtTol]; push_cast; norm_num
      exact_mod_cast hreal
    obtain ⟨k, hk⟩ := sqrtnLoop_stops n 25 (n + 1) ⟨25, le_refl 25, hguard⟩
    refine ⟨k, ?_⟩
    rw [sqrtn, if_neg (not_lt.mpr h0), if_neg hpos.ne', hk]
    rfl

/-- Closed witness for the theorem of C10. -/
theorem sqrtn_terminates_unit_interval_witness :
    ∃ k, sqrtn 25 (1/2) = some (Except.ok k) :=
  sqrtn_terminates_unit_interval (1/2) (by norm_num) (by norm_num)

/-! ### Notebook configuration constants -/

/-- `width = 600`. -/
def width : ℚ := 600

/-- `height = 400`. -/
def height : ℚ := 400

/-- `numLines = 11`. -/
def numLines : ℕ := 11

/-- `D = width / numLines`. -/
def D : ℚ := width / numLines

/-- `ratio = 1/3`. -/
def ratio : ℚ := 1 / 3

/-- `lines = [i*D for i in range(numLines+1)]`. -/
def gridLines : List ℚ := (List.range (numLines + 1)).map fun i => (i : ℚ) * D

/-- `L = ratio*D + 5`. -/
def L : ℚ := ratio * D + 5

/-! ### The quarter-circle sample table -/

/-- `samples = 1000`. -/
def samples : ℕ := 1000

/-- Embeds `xs = linspace(0, 1, samples)`: `samples` evenly spaced points from
0 to 1, so entry `i` is `i / (samples - 1) = i / 999`. -/
def xsTable (i : ℕ) : ℚ := (i : ℚ) / 999

/-- Projects a normal `sqrtn` return value out of the exception monad. -/
def exceptValue : Except String ℚ → Option ℚ
  | Except.ok k => some k
  | Except.error _ => none

/-- Embeds entry `i` of `ys = [sqrtn(1 - x*x) for x in xs]`, with the fuelled
`sqrtn`; `none` when the Newton loop does not stop within `fuel`. -/
def ysEntry (fuel i : ℕ) : Option ℚ :=
  (sqrtn fuel (1 - xsTable i * xsTable i)).bind exceptValue

/-- A successful `sqrtn` result is nonnegative and meets the exit tolerance. -/
theorem sqrtn_ok_spec (fuel : ℕ) (n k : ℚ) (h : sqrtn fuel n = some (Except.ok k)) :
    0 ≤ k ∧ |n - k * k| ≤ sqrtTol := by
  rw [sqrtn] at h
  by_cases hneg : n < 0
  · rw [if_pos hneg] at h
    simp at h
  · rw [if_neg hneg] at h
    by_cases h0 : n = 0
    · rw [if_pos h0] at h
      simp only [Option.some.injEq, Except.ok.injEq] at h
      subst h
      subst h0
      norm_num [sqrtTol]
    · rw [if_neg h0] at h
      rcases Option.map_eq_some'.mp h with ⟨k', hloop, hk'⟩
      have hkk : k' = k := by
        injection hk'
      subst hkk
      have hpos : 0 < n := lt_of_le_of_ne (not_lt.mp hneg) (Ne.symm h0)
      exact ⟨(sqrtnLoop_pos n hpos fuel (n + 1) (by positivity) k' hloop).le,
             sqrtnLoop_sound n fuel (n + 1) k' hloop⟩

theorem ysEntry_eq_some (fuel i : ℕ) (y : ℚ) (hy : ysEntry fuel i = some y) :
    sqrtn fuel (1 - xsTable i * xsTable i) = some (Except.ok y) := by
  rw [ysEntry, Option.bind_eq_some] at hy
  rcases hy with ⟨r, hr, hval⟩
  rcases r with msg | k
  · exact absurd hval (by rw [exceptValue]; simp)
  · rw [exceptValue] at hval
    injection hval with hval'
    rw [hr, hval']

/-- **C6 amended.** Every pair `(x, y)` of the sample table has `x ≥ 0`,
`y ≥ 0`, and `x² + y²` within the sqrtn tolerance `1e-7` of `1` (whenever the
fuelled sqrt terminates); the table is a pure function, read-only by
construction. -/
theorem sampleTable_near_circle (fuel i : ℕ) (hi : i < samples) (y : ℚ)
    (hy : ysEntry fuel i = some y) :
    0 ≤ xsTable i ∧ 0 ≤ y ∧ |xsTable i * xsTable i + y * y - 1| ≤ sqrtTol := by
  have hx : 0 ≤ xsTable i := by rw [xsTable]; positivity
  obtain ⟨hy0, htol⟩ := sqrtn_ok_spec fuel _ y (ysEntry_eq_some fuel i y hy)
  refine ⟨hx, hy0, ?_⟩
  rw [show xsTable i * xsTable i + y * y - 1
        = -((1 - xsTable i * xsTable i) - y * y) by ring, abs_neg]
  exact htol

/-- Concrete evaluation of the first sample-table entry. -/
theorem ysEntry_five_zero : ysEntry 5 0 = some (21523361 / 21523360) := by
  have harg : 1 - xsTable 0 * xsTable 0 = 1 := by norm_num [xsTable]
  have hval : sqrtn 5 1 = some (Except.ok (21523361 / 21523360)) := by
    norm_num [sqrtn, sqrtnLoop, sqrtTol, abs_le]
  rw [ysEntry, harg, hval]
  rfl

/-- Closed witness for the amended theorem of C6. -/
theorem sampleTable_near_circle_witness :
    0 ≤ xsTable 0 ∧ 0 ≤ (21523361 / 21523360 : ℚ) ∧
      |xsTable 0 * xsTable 0 + (21523361 / 21523360 : ℚ) * (21523361 / 21523360) - 1|
        ≤ sqrtTol :=
  sampleTable_near_circle 5 0 (by norm_num [samples]) (21523361 / 21523360)
    ysEntry_five_zero

/-- **C6 counterexample.** Entry 0 of the table is `x = 0` with
`y = sqrtn(1) = 21523361/21523360`, and `x² + y² ≠ 1`: the table does not lie
exactly on the unit circle. -/
theorem sampleTable_not_exactly_on_circle :
    ysEntry 5 0 = some (21523361 / 21523360) ∧
      ¬ (xsTable 0 * xsTable 0
          + (21523361 / 21523360 : ℚ) * (21523361 / 21523360) = 1) :=
  ⟨ysEntry_five_zero, by norm_num [xsTable]⟩

/-! ### The needle generator and the experiment runner -/

/-- One trial's random draws: `random.random()` twice (for the origin),
`random.choice([1,-1])` (`quadPos` meaning `+1`), and
`random.randint(0, samples-1)`. -/
structure Rand where
  r1 : ℚ
  r2 : ℚ
  quadPos : Bool
  idx : ℕ

/-- Embeds `randomRotatedLine(length)`: origin at `(r1*width, r2*height)`,
offset `(quad*xs[idx]*length, ys[idx]*length)`; the `ys` lookup goes through
the fuelled `sqrtn`, so the result is `none` if that loop does not stop. -/
def randomRotatedLine (fuel : ℕ) (length : ℚ) (rnd : Rand) : Option Segment :=
  (ysEntry fuel rnd.idx).map fun yv =>
    ((rnd.r1 * width, rnd.r2 * height),
     (rnd.r1 * width + (if rnd.quadPos then 1 else -1) * xsTable rnd.idx * length,
      rnd.r2 * height + yv * length))

/-- **C9.** For every needle length `L ≥ 0` and all random draws, the generated
needle points weakly upward: the second endpoint's y-coordinate is at least the
first endpoint's. -/
theorem randomRotatedLine_upward (fuel : ℕ) (length : ℚ) (hL : 0 ≤ length)
    (rnd : Rand) (s : Segment) (h : randomRotatedLine fuel length rnd = some s) :
    s.1.2 ≤ s.2.2 := by
  rcases Option.map_eq_some'.mp h with ⟨yv, hyv, hs⟩
  have hy0 : 0 ≤ yv :=
    (sqrtn_ok_spec fuel _ yv (ysEntry_eq_some fuel rnd.idx yv hyv)).1
  rw [← hs]
  show rnd.r2 * height ≤ rnd.r2 * height + yv * length
  nlinarith [mul_nonneg hy0 hL]

/-- Closed witness for the theorem of C9. -/
theorem randomRotatedLine_upward_witness :
    (((0:ℚ) * width, (0:ℚ) * height),
      ((0:ℚ) * width + (if true then (1:ℚ) else -1) * xsTable 0 * 1,
       (0:ℚ) * height + (21523361 / 21523360 : ℚ) * 1)).1.2
      ≤ (((0:ℚ) * width, (0:ℚ) * height),
      ((0:ℚ) * width + (if true then (1:ℚ) else -1) * xsTable 0 * 1,
       (0:ℚ) * height + (21523361 / 21523360 : ℚ) * 1)).2.2 :=
  randomRotatedLine_upward 5 1 (by norm_num) ⟨0, 0, true, 0⟩ _
    (by rw [randomRotatedLine, ysEntry_five_zero]; rfl)

/-- The number of needles in `sticks` that cross some grid line:
`sum([crosses(s, lines) for s in sticks])` (Python booleans summing as 0/1). -/
def crossedCount (glines : List ℚ) (sticks : List Segment) : ℕ :=
  ((sticks.map fun s => crosses s glines).map fun r => if r.1 then 1 else 0).sum

/-- Embeds `estimate()`.  The notebook draws `n` needles with
`randomRotatedLine(L)`, counts crossings against `lines`, and returns
`(0 if crossed == 0 else (2*ratio*n)/crossed, sticks, crossed)`; the returned
sticks carry the endpoint normalization done in place by `crosses`.  Here the
configuration `ratio`, `L` and the grid are parameters (the notebook fixes
them globally) and the trial count is the number of supplied random draws. -/
def runExperiment (r len : ℚ) (glines : List ℚ) (fuel : ℕ) (rnds : List Rand) :
    Option (ℚ × List Segment × ℕ) :=
  (rnds.mapM (randomRotatedLine fuel len)).map fun sticks =>
    ((if crossedCount glines sticks = 0 then (0:ℚ)
        else 2 * r * rnds.length / (crossedCount glines sticks : ℚ)),
     (sticks.map fun s => crosses s glines).map Prod.snd,
     crossedCount glines sticks)

/-- **C1.** Every run of the experiment runner that produces crossing count `C`
returns the estimate `(2·r·n)/C` when `C > 0` and exactly `0` when `C = 0`. -/
theorem runExperiment_estimate (r len : ℚ) (glines : List ℚ) (fuel : ℕ)
    (rnds : List Rand) (out : ℚ × List Segment × ℕ)
    (h : runExperiment r len glines fuel rnds = some out) :
    (out.2.2 = 0 → out.1 = 0) ∧
    (0 < out.2.2 → out.1 = 2 * r * rnds.length / (out.2.2 : ℚ)) := by
  rcases Option.map_eq_some'.mp h with ⟨sticks, -, hout⟩
  constructor
  · intro h0
    rw [← hout] at h0 ⊢
    have h0' : crossedCount glines sticks = 0 := h0
    show (if crossedCount glines sticks = 0 then (0:ℚ)
        else 2 * r * rnds.length / (crossedCount glines sticks : ℚ)) = 0
    rw [if_pos h0']
  · intro hpos
    rw [← hout] at hpos ⊢
    have hne : crossedCount glines sticks ≠ 0 := Nat.pos_iff_ne_zero.mp hpos
    show (if crossedCount glines sticks = 0 then (0:ℚ)
        else 2 * r * rnds.length / (crossedCount glines sticks : ℚ))
      = 2 * r * rnds.length / (crossedCount glines sticks : ℚ)
    rw [if_neg hne]

/-- Closed witness for the theorem of C1 (the empty run: no needles, zero
crossings, estimate 0, with the notebook's own configuration). -/
theorem runExperiment_estimate_witness :
    ((0:ℚ), ([] : List Segment), (0:ℕ)).1 = 0 :=
  (runExperiment_estimate ratio L gridLines 0 []
    ((0:ℚ), ([] : List Segment), (0:ℕ)) rfl).1 rfl

/-! ### The Riemann integrator -/

/-- Embeds `reimann(f, a, b, n, method='center')`: with `dx = (b-a)/n` and
`x = linspace(a, b, n+1)` (the points `a + i*dx`, `i = 0..n`), sums
`f(t)*dx` over `t` in `x[:-1]` (`'left'`), `x[1:]` (`'right'`), or the
pairwise midpoints `(x[:-1] + x[1:])/2` (any other method string; the Python
default argument is `'center'`). -/
def reimann (f : ℚ → ℚ) (a b : ℚ) (n : ℕ) (method : String) : ℚ :=
  if method = "left" then
    ((((List.range (n + 1)).map fun i : ℕ => a + (i:ℚ) * ((b - a) / n)).take n).map
      fun t => f t * ((b - a) / n)).sum
  else if method = "right" then
    ((((List.range (n + 1)).map fun i : ℕ => a + (i:ℚ) * ((b - a) / n)).drop 1).map
      fun t => f t * ((b - a) / n)).sum
  else
    ((List.zipWith (fun u v => (u + v) / 2)
        (((List.range (n + 1)).map fun i : ℕ => a + (i:ℚ) * ((b - a) / n)).take n)
        (((List.range (n + 1)).map fun i : ℕ => a + (i:ℚ) * ((b - a) / n)).drop 1)).map
      fun t => f t * ((b - a) / n)).sum

theorem range_map_sum (g : ℕ → ℚ) (n : ℕ) :
    ((List.range n).map g).sum = ∑ i ∈ Finset.range n, g i := by
  induction n with
  | zero => simp
  | succ m ih =>
    rw [List.range_succ, List.map_append, List.sum_append, ih, Finset.sum_range_succ]
    simp

theorem points_take (a dx : ℚ) (n : ℕ) :
    (((List.range (n + 1)).map fun i : ℕ => a + (i:ℚ) * dx).take n)
      = (List.range n).map fun i : ℕ => a + (i:ℚ) * dx := by
  rw [← List.map_take, List.take_range, min_eq_left (Nat.le_succ n)]

theorem points_drop (a dx : ℚ) (n : ℕ) :
    (((List.range (n + 1)).map fun i : ℕ => a + (i:ℚ) * dx).drop 1)
      = (List.range n).map fun i : ℕ => a + ((i:ℚ) + 1) * dx := by
  rw [← List.map_drop, List.range_succ_eq_map,
    show ((0 : ℕ) :: (List.range n).map Nat.succ).drop 1
        = (List.range n).map Nat.succ from rfl,
    List.map_map]
  congr 1
  funext i
  show a + ((Nat.succ i : ℕ) : ℚ) * dx = a + ((i:ℚ) + 1) * dx
  push_cast
  ring

theorem points_mid (a dx : ℚ) (n : ℕ) :
    List.zipWith (fun u v => (u + v) / 2)
        (((List.range (n + 1)).map fun i : ℕ => a + (i:ℚ) * dx).take n)
        (((List.range (n + 1)).map fun i : ℕ => a + (i:ℚ) * dx).drop 1)
      = (List.range n).map fun i : ℕ => a + ((i:ℚ) + 1/2) * dx := by
  rw [points_take, points_drop, List.zipWith_map, List.zipWith_same]
  have hfun : (fun i : ℕ => ((a + (i:ℚ) * dx) + (a + ((i:ℚ) + 1) * dx)) / 2)
      = fun i : ℕ => a + ((i:ℚ) + 1/2) * dx := by
    funext i
    ring
  rw [hfun]

/-- **C7.** With `dx = (b−a)/n`, the integrator sums `f` at the left endpoints
`a + i·dx` under `'left'`, the right endpoints `a + (i+1)·dx` under `'right'`,
and the midpoints `a + (i+1/2)·dx` under every other method string — in
particular under the Python default `'center'`, so the default policy is the
midpoint one. -/
theorem reimann_policies (f : ℚ → ℚ) (a b : ℚ) (hab : a ≤ b) (n : ℕ)
    (hn : 1 ≤ n) (method : String) (hml : method ≠ "left")
    (hmr : method ≠ "right") :
    reimann f a b n "left"
        = ∑ i ∈ Finset.range n, f (a + (i:ℚ) * ((b - a) / n)) * ((b - a) / n) ∧
    reimann f a b n "right"
        = ∑ i ∈ Finset.range n, f (a + ((i:ℚ) + 1) * ((b - a) / n)) * ((b - a) / n) ∧
    reimann f a b n method
        = ∑ i ∈ Finset.range n, f (a + ((i:ℚ) + 1/2) * ((b - a) / n)) * ((b - a) / n) := by
  refine ⟨?_, ?_, ?_⟩
  · rw [reimann, if_pos rfl, points_take, List.map_map, range_map_sum]
    simp only [Function.comp]
  · rw [reimann, if_neg (by decide), if_pos rfl, points_drop, List.map_map,
      range_map_sum]
    simp only [Function.comp]
  · rw [reimann, if_neg hml, if_neg hmr, points_mid, List.map_map, range_map_sum]
    simp only [Function.comp]

/-- Closed witness for the theorem of C7, at the default method string. -/
theorem reimann_policies_witness :
    reimann (fun x => x) 0 1 1 "center"
      = ∑ i ∈ Finset.range 1,
          ((0:ℚ) + ((i:ℚ) + 1/2) * ((1 - 0) / ((1:ℕ):ℚ))) * ((1 - 0) / ((1:ℕ):ℚ)) :=
  (reimann_policies (fun x => x) 0 1 (by norm_num) 1 (le_refl 1) "center"
    (by decide) (by decide)).2.2

/-- **C5 counterexample.** The integrator on `f(x) = 4/(1+x²)`, `a = 0`,
`b = 1`, `n = 1` with the left-endpoint policy does not return 16. -/
theorem reimann_left_one_ne_sixteen :
    reimann (fun x => 4 / (1 + x * x)) 0 1 1 "left" ≠ 16 := by
  norm_num [reimann, List.range_succ]

/-- **C5 amended.** That call returns exactly `dx·f(0) = 1·4 = 4`. -/
theorem reimann_left_one_eq_four :
    reimann (fun x => 4 / (1 + x * x)) 0 1 1 "left" = 4 := by
  norm_num [reimann, List.range_succ]

end PIKata
